import Mathlib

/-!
Formal model of the botkube-awscli executor plugin
(repository hskoon0722/botkube-awscli, file cmd/executor/aws/main.go,
final revision).

The Go source is shallowly embedded:
  - Go strings are modelled as Lean `String` (command layer) or as
    `List Char` (path layer, where byte-level reasoning is needed);
    the modelled strings are ASCII, where Go bytes and Lean chars agree.
  - `strings.HasPrefix`, `strings.TrimSpace`, `strings.ToLower` are
    modelled by `goPref`/`hasPrefixStr`, `goTrim`, `goToLower`
    (ASCII fragment of the Go Unicode versions).
  - filesystem and network side effects are modelled by explicit state
    passing and by traces of operations.
-/

/-- ASCII model of Go `unicode.IsSpace` restricted to the whitespace
characters that occur in chat commands. -/
def goIsSpace (c : Char) : Bool :=
  c = ' ' || c = '\t' || c = '\n' || c = '\r'

/-- Model of Go `strings.TrimSpace`: drop leading and trailing whitespace. -/
def goTrim (s : String) : String :=
  ⟨((s.data.dropWhile goIsSpace).reverse.dropWhile goIsSpace).reverse⟩

/-- ASCII model of lower-casing a single character (Go `unicode.ToLower`). -/
def goCharLower (c : Char) : Char :=
  if 'A' ≤ c ∧ c ≤ 'Z' then Char.ofNat (c.toNat + 32) else c

/-- Model of Go `strings.ToLower` (ASCII fragment). -/
def goToLower (s : String) : String :=
  ⟨s.data.map goCharLower⟩

/-- Byte-for-byte list prefix test; `goPref p s` holds when `p` is a
prefix of `s`. -/
def goPref : List Char → List Char → Bool
  | [], _ => true
  | _ :: _, [] => false
  | a :: as, b :: bs => if a = b then goPref as bs else false

/-- Model of Go `strings.HasPrefix s pre`. -/
def hasPrefixStr (s pre : String) : Bool :=
  goPref pre.data s.data

/-- Model of Go `s[n:]` for an `n`-character ASCII cut. -/
def goDrop (s : String) (n : Nat) : String :=
  ⟨s.data.drop n⟩

/-! ### Command Authorization Filter (`isAllowed`, main.go lines 1125-1133) -/

/-- Model of `isAllowed`: the trimmed command must start with at least one
trimmed allow-list entry. -/
def isAllowed (cmd : String) (allow : List String) : Bool :=
  let c := goTrim cmd
  allow.any fun p => hasPrefixStr c (goTrim p)

/-- The gate used in `Execute` (line 891): the command is rejected when the
allow-list is non-empty and `isAllowed` fails. -/
def authRejected (cmdLine : String) (allowed : List String) : Bool :=
  decide (allowed.length > 0) && !(isAllowed cmdLine allowed)

/-! ### Command normalization (`normalizeCmd`, main.go lines 966-972) -/

/-- The plugin name constant. -/
def pluginNameStr : String := "aws"

/-- Model of `normalizeCmd`: trim, then strip the case-insensitive plugin
name from the front (3 bytes) and trim the remainder. -/
def normalizeCmd (raw : String) : String :=
  let cmd := goTrim raw
  if hasPrefixStr (goToLower cmd) pluginNameStr then
    goTrim (goDrop cmd pluginNameStr.length)
  else cmd

/-- Restatement of the spec sentence for `normalizeCmd`: when the trimmed,
lowercased input begins with the three characters `aws`, remove exactly the
first three characters of the trimmed string and trim the remainder;
otherwise return the input merely trimmed. -/
def normalizeCmdSpec (raw : String) : String :=
  let cmd := goTrim raw
  if (goToLower cmd).data.take 3 = ['a', 'w', 's'] then
    goTrim ⟨cmd.data.drop 3⟩
  else cmd

/-! ### Configuration -/

/-- Model of the executor `Config` record. `env` is an association list;
the Go map has unique keys but the model does not need that. -/
structure Config where
  defaultRegion : String
  prependArgs : List String
  allowed : List String
  env : List (String × String)

/-! ### Environment Builder (`buildEnv`, main.go lines 1012-1025)

`buildEnv` in Go appends `"K=V"` strings to `os.Environ()`.  The model
keeps the key and the value as a pair; a child process resolves duplicate
keys by taking the last entry in the slice, which `envLookup` captures. -/

/-- The value a child process sees for variable `k`: the last entry wins. -/
def envLookup (env : List (String × String)) (k : String) : Option String :=
  (env.reverse.find? fun e => e.1 == k).map (·.2)

/-- Model of `buildEnv`: inherited environment, then fixed defaults, then
the default region when configured, then `LD_LIBRARY_PATH` when a bundle
supplied one, then administrator overrides (this is the order the Go code
appends in). -/
def buildEnv (base : List (String × String)) (cfg : Config) (ldPath : String) :
    List (String × String) :=
  base ++ [("HOME", "/tmp"), ("AWS_PAGER", "")]
    ++ (if cfg.defaultRegion ≠ "" then [("AWS_DEFAULT_REGION", cfg.defaultRegion)] else [])
    ++ (if ldPath ≠ "" then [("LD_LIBRARY_PATH", ldPath)] else [])
    ++ cfg.env

/-- The spec's precedence order, written as a lookup chain from highest
precedence to lowest: administrator overrides, then the default region,
then the resolved library path, then the fixed safety defaults, then the
inherited environment. -/
def specEnvValue (base : List (String × String)) (cfg : Config) (ldPath : String)
    (k : String) : Option String :=
  (envLookup cfg.env k).orElse fun _ =>
    if k = "AWS_DEFAULT_REGION" ∧ cfg.defaultRegion ≠ "" then some cfg.defaultRegion
    else if k = "LD_LIBRARY_PATH" ∧ ldPath ≠ "" then some ldPath
    else if k = "HOME" then some "/tmp"
    else if k = "AWS_PAGER" then some ""
    else envLookup base k

/-! ### Execution Orchestrator (`Execute`, main.go lines 872-964)

`Execute` is modelled as a pure function over the configuration, the raw
command and an oracle supplying the outcomes of the effectful steps
(provisioning, `shlex.Split`, running the child).  Besides the resulting
message it returns the trace of effects: `.provision` records a call to
`prepareAws` (which may download and extract) and `.runProc` records the
spawning of a child process. -/

/-- Effects `Execute` can perform. -/
inductive ExecEffect
  | provision
  | runProc
  deriving DecidableEq, Repr

/-- Outcomes of the effectful collaborators of `Execute`. -/
structure ExecOracle where
  /-- result of `prepareAws` (`ensureFromBundle`): error text on failure -/
  prepare : Except String Unit
  /-- result of `shlex.Split` on the final command line -/
  shlexSplit : String → Except String (List String)
  /-- whether `cmd.CombinedOutput` returned an error -/
  runErr : Bool
  /-- combined output of the child, already trimmed -/
  runOut : String

/-- The user-visible message classes `Execute` can produce. -/
inductive OutMsg
  | helpMsg
  | helpFull
  | notAllowed (cmd : String)
  | invalidArgs (e : String)
  | prepFailed (e : String)
  | helperMsg
  | errorMsg (out : String)
  | success (out : String)
  deriving DecidableEq, Repr

/-- Model of `Execute`: trim, route help, normalize, authorize, prepend,
handle the `helper reboot-ec2` special command, split, provision, run. -/
def executeModel (cfg : Config) (rawCmd : String) (o : ExecOracle) :
    OutMsg × List ExecEffect :=
  let raw := goTrim rawCmd
  let lower := goToLower raw
  if lower = "" ∨ lower = "aws" ∨ lower = "aws help" ∨ lower = "help" then
    (.helpMsg, [])
  else if lower = "aws help full" ∨ lower = "help full" ∨
      lower = "aws help examples" ∨ lower = "help examples" then
    (.helpFull, [])
  else
    let cmdLine := normalizeCmd raw
    if authRejected cmdLine cfg.allowed then
      (.notAllowed cmdLine, [])
    else
      let cmdLine :=
        if cfg.prependArgs.length > 0 then
          String.intercalate " " (cfg.prependArgs ++ [cmdLine])
        else cmdLine
      if hasPrefixStr cmdLine "helper reboot-ec2" then
        match o.prepare with
        | .error e => (.prepFailed e, [.provision])
        | .ok _ => (.helperMsg, [.provision, .runProc])
      else
        match o.shlexSplit cmdLine with
        | .error e => (.invalidArgs e, [])
        | .ok _ =>
          match o.prepare with
          | .error e => (.prepFailed e, [.provision])
          | .ok _ =>
            if o.runErr then (.errorMsg o.runOut, [.provision, .runProc])
            else (.success o.runOut, [.provision, .runProc])

/-- The help-routing predicate of `Execute` (lines 881-887). -/
def helpRouted (raw : String) : Bool :=
  let lower := goToLower raw
  lower = "" || lower = "aws" || lower = "aws help" || lower = "help" ||
    lower = "aws help full" || lower = "help full" ||
    lower = "aws help examples" || lower = "help examples"

/-! ### Dependency Resolver (`ensureFromBundle`, main.go lines 664-717)

The resolver is modelled with explicit state (`World`) and an oracle for
the download outcome.  `World.statPerm` gives the permission bits of an
existing filesystem object (`none` when `os.Stat` fails); `tmpExists`
tracks whether the uniquely named temporary download file exists.  The
contents written by a successful extraction are outside the scope of the
claims about this function and are not tracked. -/

/-- Filesystem/permission state visible to the resolver. -/
structure World where
  statPerm : List Char → Option Nat
  tmpExists : Bool

/-- Model of `isExecutable` (lines 1140-1146): `os.Stat` succeeds and some
execute bit of the permission part of the mode is set. -/
def isExecutable (w : World) (p : List Char) : Bool :=
  match w.statPerm p with
  | some m => (m &&& 0o777) &&& 0o111 != 0
  | none => false

/-- Outcome of `httpGetToFile` (lines 620-643).  The destination file is
created with `O_CREATE` only after the response status is checked, so a
failure can leave the file behind (`failWithFile`, e.g. an error from
`io.Copy`) or not (`failNoFile`, e.g. a request error or a bad status). -/
inductive DlOutcome
  | failNoFile
  | failWithFile
  | success
  deriving DecidableEq, Repr

/-- Oracle for the resolver's environment and effectful steps. -/
structure ResolverOracle where
  /-- `runtime.GOARCH` -/
  arch : String
  /-- `os.Getenv("AWSCLI_TARBALL_URL_" + upper(arch))` -/
  envURL : String
  /-- outcome of the download -/
  download : DlOutcome
  /-- whether `untarGzSafe` succeeds on the downloaded archive -/
  extractOk : Bool

/-- The built-in per-architecture bundle URL table (`defaultBundleURL`);
a missing key yields the zero value `""` as in Go. -/
def defaultBundleURL (arch : String) : String :=
  if arch = "amd64" then
    "https://github.com/hskoon0722/botkube-awscli/releases/download/v0.0.0-rc.3/aws_linux_amd64.tar.gz"
  else ""

/-- Resolver failures. -/
inductive DepErr
  | noURL (arch : String)
  | downloadFailed
  | extractFailed
  deriving DecidableEq, Repr

/-- Network effect trace entries. -/
inductive NetEffect
  | download (url : String)
  deriving DecidableEq, Repr

/-! ### Path model (`path/filepath` on Linux)

Paths are byte strings; on the target platform `os.PathSeparator` is `'/'`.
`goClean` implements the lexical simplification of `filepath.Clean`:
split on the separator, drop empty and `.` segments, resolve `..`
segments (popping the previous segment, discarding at the root of a
rooted path, and keeping leading `..`s of a relative path), and rebuild. -/

/-- Go byte strings for the path layer. -/
abbrev GoStr := List Char

/-- The platform path separator (`os.PathSeparator` on Linux). -/
def psep : Char := '/'

/-- Split a path on the separator (model of the segment scan inside
`filepath.Clean`). -/
def splitSlash : GoStr → List GoStr
  | [] => [[]]
  | c :: rest =>
    if c = psep then [] :: splitSlash rest
    else
      match splitSlash rest with
      | [] => [[c]]
      | s :: ss => (c :: s) :: ss

/-- Rebuild a path from segments, separating them with `psep`. -/
def joinSegs : List GoStr → GoStr
  | [] => []
  | [s] => s
  | s :: t :: rest => s ++ psep :: joinSegs (t :: rest)

/-- One step of `filepath.Clean`'s segment resolution. -/
def cleanStep (rooted : Bool) (out : List GoStr) (seg : GoStr) : List GoStr :=
  if seg = [] ∨ seg = ['.'] then out
  else if seg = ['.', '.'] then
    if out ≠ [] ∧ out.getLast? ≠ some ['.', '.'] then out.dropLast
    else if rooted then out
    else out ++ [['.', '.']]
  else out ++ [seg]

/-- Resolve a whole segment list. -/
def cleanSegs (rooted : Bool) (segs : List GoStr) : List GoStr :=
  segs.foldl (cleanStep rooted) []

/-- Model of `filepath.Clean` (Unix); the rooted and the relative case
are spelled out separately. -/
def goClean (p : GoStr) : GoStr :=
  if p = [] then ['.']
  else if p.head? = some psep then
    let out := cleanSegs true (splitSlash p)
    if out = [] then [psep] else psep :: joinSegs out
  else
    let out := cleanSegs false (splitSlash p)
    if out = [] then ['.'] else joinSegs out

/-- Model of `filepath.IsAbs` (Unix). -/
def goIsAbs (p : GoStr) : Bool := p.head? = some psep

/-- Model of `filepath.Join` on two elements: empty elements are skipped,
the remainder is joined with the separator and cleaned. -/
def goJoin (a b : GoStr) : GoStr :=
  if a = [] ∧ b = [] then []
  else if a = [] then goClean b
  else if b = [] then goClean a
  else goClean (a ++ psep :: b)

/-- Model of `filepath.Abs` for a fixed working directory `cwd`. -/
def goAbs (cwd p : GoStr) : GoStr :=
  if goIsAbs p then goClean p else goJoin cwd p

/-- A rooted path rendered from resolved segments. -/
def renderAbs (segs : List GoStr) : GoStr := psep :: joinSegs segs

/-- The segments of a rooted path (used to enumerate its ancestors). -/
def segsOf (p : GoStr) : List GoStr := cleanSegs true (splitSlash p)

/-- Model of `filepath.Dir` (Unix, no volume): everything up to and
including the final separator, cleaned; `.` when there is no separator. -/
def goDir (p : GoStr) : GoStr :=
  let pref := (p.reverse.dropWhile (fun c => !(c = psep : Bool))).reverse
  if pref = [] then ['.'] else goClean pref

/-! ### Safe Path Joiner (`safeJoin`, main.go lines 646-660) -/

/-- Model of `safeJoin base name`: join, resolve both the base and the
join to absolute cleaned form, and reject unless the resolved join equals
the resolved base or extends it past a separator.  The error carries the
offending `name` as in `fmt.Errorf("unsafe path: %s", name)`. -/
def safeJoin (cwd base name : GoStr) : Except GoStr GoStr :=
  let path := goJoin base name
  let baseAbs := goAbs cwd base
  let pathAbs := goAbs cwd path
  if pathAbs ≠ baseAbs ∧ goPref (baseAbs ++ [psep]) pathAbs = false then
    .error name
  else
    .ok pathAbs

/-- The spec's acceptance condition for `safeJoin`, stated directly from
the spec sentence: the cleaned absolute join equals the base or starts
with the base followed by the platform path separator. -/
def specSafeJoinOk (cwd base name : GoStr) : Prop :=
  goAbs cwd (goJoin base name) = goAbs cwd base ∨
    goPref (goAbs cwd base ++ [psep]) (goAbs cwd (goJoin base name)) = true

instance (cwd base name : GoStr) : Decidable (specSafeJoinOk cwd base name) := by
  unfold specSafeJoinOk; infer_instance

/-- A path lies under (or is) the base directory. -/
def underBase (b p : GoStr) : Prop :=
  p = b ∨ goPref (b ++ [psep]) p = true

instance (b p : GoStr) : Decidable (underBase b p) := by
  unfold underBase; infer_instance

/-- Whether an entry name contains a `..` segment. -/
def hasDotDotSeg (name : GoStr) : Bool :=
  (splitSlash name).contains ['.', '.']

/-! ### Archive Extractor (`untarGzSafe`, main.go lines 720-787)

The tar stream is modelled as a list of entries; each entry carries its
header name, type flag, declared size (`h.Size`, a signed 64-bit value in
Go, hence `Int`) and the number of content bytes actually available in
the stream.  The extractor returns the outcome together with the trace of
filesystem operations it performed, in order.  `io.CopyN out tr h.Size`
copies at most `h.Size` bytes and stops early at the end of the entry's
content, which the code accepts (`cpErr == io.EOF` is not an error). -/

/-- The per-entry and total extraction limits (main.go lines 31-32). -/
def maxEntryBytes : Int := 128 * 2 ^ 20

/-- Total extraction limit: 512 MiB. -/
def maxExtractBytes : Int := 512 * 2 ^ 20

/-- Tar entry type flags; `other` covers every flag the code skips
(symlinks, devices, ...). -/
inductive TarType
  | dir
  | reg
  | other
  deriving DecidableEq, Repr

/-- A tar archive entry. -/
structure TarEntry where
  name : GoStr
  typeflag : TarType
  size : Int
  content : Nat
  deriving DecidableEq, Repr

/-- Extraction failures. -/
inductive ExtractErr
  | unsafePath (name : GoStr)
  | entryTooLarge (size : Int)
  | totalTooLarge
  deriving DecidableEq, Repr

/-- Filesystem operations performed by the extractor, in order. -/
inductive FsOp
  | mkdirAll (p : GoStr)
  | openTrunc (p : GoStr)
  | write (p : GoStr) (n : Nat)
  deriving DecidableEq, Repr

/-- The extraction loop of `untarGzSafe`, carrying the running total
`extracted` of declared sizes of the regular files written so far. -/
def untarLoop (cwd dst : GoStr) : List TarEntry → Int → Except ExtractErr Unit × List FsOp
  | [], _ => (.ok (), [])
  | e :: rest, extracted =>
    match e.typeflag with
    | .other => untarLoop cwd dst rest extracted
    | .dir =>
      match safeJoin cwd dst e.name with
      | .error n => (.error (.unsafePath n), [])
      | .ok target =>
        let (r, ops) := untarLoop cwd dst rest extracted
        (r, .mkdirAll target :: ops)
    | .reg =>
      match safeJoin cwd dst e.name with
      | .error n => (.error (.unsafePath n), [])
      | .ok target =>
        if e.size < 0 ∨ e.size > maxEntryBytes then
          (.error (.entryTooLarge e.size), [])
        else if extracted + e.size > maxExtractBytes then
          (.error .totalTooLarge, [])
        else
          let written := min e.size.toNat e.content
          let (r, ops) := untarLoop cwd dst rest (extracted + e.size)
          (r, .mkdirAll (goDir target) :: .openTrunc target :: .write target written :: ops)

/-- Model of `untarGzSafe`: run the loop from a zero running total. -/
def untarGzSafe (cwd : GoStr) (entries : List TarEntry) (dst : GoStr) :
    Except ExtractErr Unit × List FsOp :=
  untarLoop cwd dst entries 0

/-- Filesystem contents affected by extraction: the directories and the
regular files that exist. -/
structure Fs where
  dirs : List GoStr
  files : List GoStr
  deriving DecidableEq, Repr

/-- The chain of a rooted path and its ancestors, from the root down. -/
def ancestorChain (p : GoStr) : List GoStr :=
  (List.range ((segsOf p).length + 1)).map fun i => renderAbs ((segsOf p).take i)

/-- Apply one filesystem operation: `MkdirAll` creates the target and its
missing ancestors, `OpenFile(..., O_CREATE|O_TRUNC, ...)` creates the file
when missing, writes change no name. -/
def applyOp (fs : Fs) : FsOp → Fs
  | .mkdirAll p =>
    { fs with dirs := fs.dirs ++ (ancestorChain p).filter (fun q => !(fs.dirs.contains q)) }
  | .openTrunc p =>
    { fs with files := if fs.files.contains p then fs.files else fs.files ++ [p] }
  | .write _ _ => fs

/-- Apply a trace of filesystem operations. -/
def applyOps (fs : Fs) (ops : List FsOp) : Fs :=
  ops.foldl applyOp fs

/-! ### Dependency Resolver model (`ensureFromBundle`)

Cache locations are derived from the executable path as in `depsDir`
(line 612-618) and lines 669-672. -/

/-- Model of `depsDir`: the executable path with `_deps` appended. -/
def depsDir (exePath : GoStr) : GoStr := exePath ++ "_deps".data

/-- `bundleRoot = Join(depsDir, "bundle")`. -/
def bundleRoot (exePath : GoStr) : GoStr := goJoin (depsDir exePath) "bundle".data

/-- `distDir = Join(bundleRoot, "awscli", "dist")`. -/
def awsDistDir (exePath : GoStr) : GoStr :=
  goJoin (goJoin (bundleRoot exePath) "awscli".data) "dist".data

/-- `glibcDir = Join(bundleRoot, "glibc")`. -/
def glibcDirOf (exePath : GoStr) : GoStr := goJoin (bundleRoot exePath) "glibc".data

/-- `awsBin = Join(distDir, "aws")`. -/
def awsBinOf (exePath : GoStr) : GoStr := goJoin (awsDistDir exePath) "aws".data

/-- Model of `ensureFromBundle`.  Fast path: when the expected binary is
executable and the glibc directory stats, return the triple at once with
no effect.  Slow path: resolve the URL (environment override first, then
the built-in table), fail without network when none is configured,
otherwise download to the unique temporary file and extract.  The
`defer os.Remove(tmp)` is registered only after `httpGetToFile` returns
without error, which the temporary-file bookkeeping reflects. -/
def ensureFromBundle (w : World) (exePath : GoStr) (o : ResolverOracle) :
    Except DepErr (GoStr × GoStr × GoStr) × World × List NetEffect :=
  let distDir := awsDistDir exePath
  let glibcDir := glibcDirOf exePath
  let awsBin := awsBinOf exePath
  if isExecutable w awsBin && (w.statPerm glibcDir).isSome then
    (.ok (awsBin, glibcDir, distDir), w, [])
  else
    let url := if o.envURL ≠ "" then o.envURL else defaultBundleURL o.arch
    if url = "" then (.error (.noURL o.arch), w, [])
    else
      match o.download with
      | .failNoFile => (.error .downloadFailed, { w with tmpExists := false }, [.download url])
      | .failWithFile => (.error .downloadFailed, { w with tmpExists := true }, [.download url])
      | .success =>
        if o.extractOk then
          (.ok (awsBin, glibcDir, distDir), { w with tmpExists := false }, [.download url])
        else
          (.error .extractFailed, { w with tmpExists := false }, [.download url])



/-- A resolved path segment: nonempty, not `.` or `..`, and separator-free. -/
def goodSeg (s : GoStr) : Prop :=
  s ≠ [] ∧ s ≠ ['.'] ∧ s ≠ ['.', '.'] ∧ psep ∉ s

/-- All segments of a list are resolved segments. -/
def goodSegs (l : List GoStr) : Prop := ∀ t ∈ l, goodSeg t

/-- The cumulative declared size of the regular-file entries of a tar
stream. -/
def regSizeSum (entries : List TarEntry) : Int :=
  (entries.map fun e => if e.typeflag = TarType.reg then e.size else 0).sum

/-! ## Lemmas and claim theorems -/

theorem goPref_iff (p s : List Char) : goPref p s = true ↔ ∃ t, p ++ t = s := by
  induction p generalizing s with
  | nil => simp [goPref]
  | cons a as ih =>
    cases s with
    | nil => simp [goPref]
    | cons b bs =>
      by_cases hab : a = b
      · subst hab
        simp [goPref, ih]
      · constructor
        · intro h; simp [goPref, hab] at h
        · rintro ⟨t, ht⟩
          rw [List.cons_append] at ht
          injection ht with h1 _
          exact absurd h1 hab

/-- Claim C2: with an empty allow-list the gate used by `Execute` never
rejects; with a non-empty allow-list a command passes exactly when its
trimmed form starts, byte for byte, with some trimmed allow-list entry;
and the spec's worked example behaves as stated. -/
theorem isAllowed_semantics :
    (∀ cmd, authRejected cmd [] = false) ∧
    (∀ cmd allow, allow ≠ [] →
      (authRejected cmd allow = false ↔
        ∃ p ∈ allow, hasPrefixStr (goTrim cmd) (goTrim p) = true)) ∧
    isAllowed "ec2 describe-instances" ["ec2 describe", "sts get-caller-identity"] = true ∧
    isAllowed "ec2 delete-instance" ["ec2 describe", "sts get-caller-identity"] = false := by
  refine ⟨?_, ?_, by decide, by decide⟩
  · intro cmd
    simp [authRejected]
  · intro cmd allow h
    simp [authRejected, isAllowed, List.any_eq_true, List.length_pos, h]

/-- Witness for C2 at concrete inputs. -/
theorem isAllowed_semantics_witness :
    (authRejected "x" [] = false) ∧
    (authRejected "ec2 describe-instances" ["ec2 describe", "sts get-caller-identity"] = false ↔
      ∃ p ∈ ["ec2 describe", "sts get-caller-identity"],
        hasPrefixStr (goTrim "ec2 describe-instances") (goTrim p) = true) :=
  ⟨isAllowed_semantics.1 "x",
   isAllowed_semantics.2.1 "ec2 describe-instances" _ (by decide)⟩

/-- Claim C9: a whitespace-only allow-list entry trims to the empty
string, which is a prefix of every command, so `isAllowed` accepts every
command. -/
theorem isAllowed_blank_entry (cmd : String) (allow : List String)
    (h : ∃ p ∈ allow, goTrim p = "") : isAllowed cmd allow = true := by
  obtain ⟨p, hp, hpe⟩ := h
  simp only [isAllowed, List.any_eq_true]
  refine ⟨p, hp, ?_⟩
  rw [hpe]
  rfl

/-- Witness for C9: the entry `"  "` allows an arbitrary command. -/
theorem isAllowed_blank_entry_witness :
    (∃ p ∈ ["  "], goTrim p = "") ∧
    isAllowed "ec2 terminate-instances --instance-ids i-1" ["  "] = true :=
  ⟨by decide, isAllowed_blank_entry _ _ (by decide)⟩

theorem goPref_aws_iff (l : List Char) :
    goPref pluginNameStr.data l = true ↔ l.take 3 = ['a', 'w', 's'] := by
  have hdata : pluginNameStr.data = ['a', 'w', 's'] := rfl
  rw [hdata, goPref_iff]
  constructor
  · rintro ⟨t, rfl⟩
    rfl
  · intro h
    exact ⟨l.drop 3, by rw [← h]; exact List.take_append_drop 3 l⟩

/-- Claim C10: `normalizeCmd` strips the plugin name case-insensitively
and without a word boundary — it agrees everywhere with the spec's
description (remove exactly the first three characters of the trimmed
string when its lowercased form begins with `aws`, else return the
trimmed string), and the worked examples hold. -/
theorem normalizeCmd_semantics :
    (∀ raw, normalizeCmd raw = normalizeCmdSpec raw) ∧
    normalizeCmd "AWS s3 ls" = "s3 ls" ∧
    normalizeCmd "awsfoo" = "foo" ∧
    normalizeCmd " kubectl get pods " = "kubectl get pods" := by
  refine ⟨?_, by decide, by decide, by decide⟩
  intro raw
  unfold normalizeCmd normalizeCmdSpec
  simp only [hasPrefixStr]
  have h := goPref_aws_iff (goToLower (goTrim raw)).data
  by_cases hc : goPref pluginNameStr.data (goToLower (goTrim raw)).data = true
  · rw [if_pos hc, if_pos (h.mp hc)]
    rfl
  · rw [if_neg hc, if_neg (fun hh => hc (h.mpr hh))]

/-- Claim C3: with a non-empty allow-list, when the normalized command
(after plugin-name stripping, before prepend-args) fails `isAllowed`,
`Execute` returns the "Command not allowed" message for that normalized
command and performs no effect — no provisioning and no child process —
whatever the configured prepend-args are. -/
theorem executeReject (cfg : Config) (raw : String) (o : ExecOracle) (ps : List String)
    (hHelp : helpRouted (goTrim raw) = false)
    (hNE : cfg.allowed ≠ [])
    (hNA : isAllowed (normalizeCmd (goTrim raw)) cfg.allowed = false) :
    executeModel { cfg with prependArgs := ps } raw o
      = (.notAllowed (normalizeCmd (goTrim raw)), []) := by
  unfold executeModel
  rw [if_neg ?c1, if_neg ?c2, if_pos ?c3]
  case c1 => intro h; rcases h with h | h | h | h <;> simp [helpRouted, h] at hHelp
  case c2 => intro h; rcases h with h | h | h | h <;> simp [helpRouted, h] at hHelp
  case c3 => simp [authRejected, hNA, List.length_pos, hNE]

/-- Witness for C3 at concrete inputs: allow-list `["ec2"]`, command
`"aws s3 ls"`. -/
theorem executeReject_witness :
    executeModel ⟨"", ["--profile", "p"], ["ec2"], []⟩ "aws s3 ls"
        ⟨.ok (), fun _ => .ok [], false, ""⟩
      = (.notAllowed (normalizeCmd (goTrim "aws s3 ls")), []) :=
  executeReject ⟨"", [], ["ec2"], []⟩ "aws s3 ls" ⟨.ok (), fun _ => .ok [], false, ""⟩
    ["--profile", "p"] (by decide) (by decide) (by decide)

/-- Claim C6: when the expected binary is already executable and the glibc
directory stats, `ensureFromBundle` returns the cached triple at once with
no network effect and an unchanged world, and a second call (with any
oracle) returns the identical triple, again with no network effect. -/
theorem ensureFromBundle_idempotent (w : World) (e : GoStr) (o o' : ResolverOracle)
    (hbin : isExecutable w (awsBinOf e) = true)
    (hgl : (w.statPerm (glibcDirOf e)).isSome = true) :
    ensureFromBundle w e o = (.ok (awsBinOf e, glibcDirOf e, awsDistDir e), w, []) ∧
    ensureFromBundle (ensureFromBundle w e o).2.1 e o'
      = (.ok (awsBinOf e, glibcDirOf e, awsDistDir e), w, []) := by
  have main : ∀ oo : ResolverOracle,
      ensureFromBundle w e oo = (.ok (awsBinOf e, glibcDirOf e, awsDistDir e), w, []) := by
    intro oo
    unfold ensureFromBundle
    rw [if_pos]
    rw [hbin, hgl]
    rfl
  refine ⟨main o, ?_⟩
  rw [main o]
  exact main o'

/-- Witness for C6 with a concretely populated cache. -/
theorem ensureFromBundle_idempotent_witness :
    ensureFromBundle
        ⟨fun p => if p = awsBinOf "/x".data ∨ p = glibcDirOf "/x".data then some 0o755 else none,
         false⟩
        "/x".data ⟨"amd64", "", .success, true⟩
      = (.ok (awsBinOf "/x".data, glibcDirOf "/x".data, awsDistDir "/x".data),
         ⟨fun p => if p = awsBinOf "/x".data ∨ p = glibcDirOf "/x".data then some 0o755 else none,
          false⟩, []) :=
  (ensureFromBundle_idempotent _ _ ⟨"amd64", "", .success, true⟩ ⟨"amd64", "", .success, true⟩
    (by decide) (by decide)).1

/-- Counterexample to claim C8 as stated: a download that fails after the
destination file was created (`httpGetToFile` opens the file with
`O_CREATE` before copying) returns from `ensureFromBundle` before the
`defer os.Remove(tmp)` is registered, so the temporary file still exists
when the call returns. -/
theorem ensureFromBundle_tmp_leak :
    ((ensureFromBundle ⟨fun _ => none, false⟩ "/x".data
        ⟨"amd64", "u", .failWithFile, true⟩).1 = .error .downloadFailed) ∧
    ((ensureFromBundle ⟨fun _ => none, false⟩ "/x".data
        ⟨"amd64", "u", .failWithFile, true⟩).2.1.tmpExists = true) ∧
    ((ensureFromBundle ⟨fun _ => none, false⟩ "/x".data
        ⟨"amd64", "u", .failWithFile, true⟩).2.2 = [.download "u"]) :=
  ⟨rfl, rfl, rfl⟩

/-- Claim C8 amended: once the download call itself returns successfully
the deferred removal is in scope, so the temporary file no longer exists
when `ensureFromBundle` returns — on the success path and on the
extraction-failure path alike.  (When the download call fails, the
removal is not registered; the file persists exactly when the failure
happened after the file was created, as the counterexample shows.) -/
theorem ensureFromBundle_tmp_cleanup (w : World) (e : GoStr) (o : ResolverOracle)
    (h0 : w.tmpExists = false) (hdl : o.download ≠ .failWithFile) :
    (ensureFromBundle w e o).2.1.tmpExists = false := by
  unfold ensureFromBundle
  by_cases hfast : (isExecutable w (awsBinOf e) && (w.statPerm (glibcDirOf e)).isSome) = true
  · rw [if_pos hfast]
    exact h0
  · rw [if_neg hfast]
    by_cases hurl : (if o.envURL ≠ "" then o.envURL else defaultBundleURL o.arch) = ""
    · rw [if_pos hurl]
      exact h0
    · rw [if_neg hurl]
      cases hd : o.download with
      | failNoFile => rfl
      | failWithFile => exact absurd hd hdl
      | success =>
        by_cases hex : o.extractOk = true
        · rw [hex]; rfl
        · rw [Bool.not_eq_true] at hex; rw [hex]; rfl

/-- Witness for the amended C8: a successful download followed by a failed
extraction still leaves no temporary file. -/
theorem ensureFromBundle_tmp_cleanup_witness :
    (ensureFromBundle ⟨fun _ => none, false⟩ "/x".data
        ⟨"amd64", "u", .success, false⟩).2.1.tmpExists = false :=
  ensureFromBundle_tmp_cleanup ⟨fun _ => none, false⟩ "/x".data
    ⟨"amd64", "u", .success, false⟩ rfl (by decide)

theorem findAppend {α : Type} (l₁ l₂ : List α) (p : α → Bool) :
    (l₁ ++ l₂).find? p = ((l₁.find? p).orElse fun _ => l₂.find? p) := by
  induction l₁ with
  | nil => simp [Option.orElse]
  | cons a t ih =>
    by_cases h : p a = true
    · simp [List.find?_cons, h, Option.orElse]
    · rw [Bool.not_eq_true] at h
      simp [List.find?_cons, h, ih]

theorem envLookup_append (a b : List (String × String)) (k : String) :
    envLookup (a ++ b) k = ((envLookup b k).orElse fun _ => envLookup a k) := by
  unfold envLookup
  rw [List.reverse_append, findAppend]
  cases b.reverse.find? fun e => e.1 == k <;> simp [Option.orElse]

theorem envLookup_nil (k : String) : envLookup [] k = none := rfl

theorem envLookup_single (n v k : String) :
    envLookup [(n, v)] k = if k = n then some v else none := by
  by_cases h : k = n
  · subst h
    simp [envLookup, List.find?]
  · have hne : ¬(n == k) = true := by
      simp only [beq_iff_eq]
      exact fun hh => h hh.symm
    rw [Bool.not_eq_true] at hne
    simp [envLookup, List.find?, hne, h]

theorem envLookup_defaults (k : String) :
    envLookup [("HOME", "/tmp"), ("AWS_PAGER", "")] k =
      if k = "HOME" then some "/tmp" else if k = "AWS_PAGER" then some "" else none := by
  by_cases h1 : k = "HOME"
  · subst h1; decide
  · by_cases h2 : k = "AWS_PAGER"
    · subst h2; decide
    · have hb1 : ¬(("HOME" : String) == k) = true := by
        simp only [beq_iff_eq]; exact fun hh => h1 hh.symm
      have hb2 : ¬(("AWS_PAGER" : String) == k) = true := by
        simp only [beq_iff_eq]; exact fun hh => h2 hh.symm
      rw [Bool.not_eq_true] at hb1 hb2
      simp [envLookup, List.find?, hb1, hb2, h1, h2]

/-- Claim C7: for every variable, the value the child process sees from
`buildEnv` (last entry wins) is the one given by the spec's precedence
chain: administrator overrides, then the configured default region, then
the resolved library path, then the fixed safety defaults, then the
inherited environment. -/
theorem buildEnv_precedence (base : List (String × String)) (cfg : Config)
    (ld : String) (k : String) :
    envLookup (buildEnv base cfg ld) k = specEnvValue base cfg ld k := by
  have hld : envLookup (if ld ≠ "" then [("LD_LIBRARY_PATH", ld)] else []) k
      = if k = "LD_LIBRARY_PATH" ∧ ld ≠ "" then some ld else none := by
    by_cases hl : ld = ""
    · simp [hl, envLookup_nil]
    · simp [hl, envLookup_single]
  have hreg : envLookup
        (if cfg.defaultRegion ≠ "" then [("AWS_DEFAULT_REGION", cfg.defaultRegion)] else []) k
      = if k = "AWS_DEFAULT_REGION" ∧ cfg.defaultRegion ≠ "" then some cfg.defaultRegion
        else none := by
    by_cases hr : cfg.defaultRegion = ""
    · simp [hr, envLookup_nil]
    · simp [hr, envLookup_single]
  unfold buildEnv specEnvValue
  rw [envLookup_append, envLookup_append, envLookup_append, envLookup_append,
    hld, hreg, envLookup_defaults]
  cases henv : envLookup cfg.env k with
  | some v => simp [Option.orElse]
  | none =>
    simp only [Option.orElse]
    by_cases hk1 : k = "AWS_DEFAULT_REGION"
    · subst hk1
      by_cases hr : cfg.defaultRegion = "" <;>
        simp [hr, Option.orElse, show ("AWS_DEFAULT_REGION" : String) ≠ "LD_LIBRARY_PATH" from by decide,
          show ("AWS_DEFAULT_REGION" : String) ≠ "HOME" from by decide,
          show ("AWS_DEFAULT_REGION" : String) ≠ "AWS_PAGER" from by decide]
    · by_cases hk2 : k = "LD_LIBRARY_PATH"
      · subst hk2
        by_cases hl : ld = "" <;>
          simp [hl, Option.orElse, show ("LD_LIBRARY_PATH" : String) ≠ "AWS_DEFAULT_REGION" from by decide,
            show ("LD_LIBRARY_PATH" : String) ≠ "HOME" from by decide,
            show ("LD_LIBRARY_PATH" : String) ≠ "AWS_PAGER" from by decide]
      · by_cases hk3 : k = "HOME"
        · subst hk3
          simp [Option.orElse, show ("HOME" : String) ≠ "AWS_DEFAULT_REGION" from by decide,
            show ("HOME" : String) ≠ "LD_LIBRARY_PATH" from by decide]
        · by_cases hk4 : k = "AWS_PAGER"
          · subst hk4
            simp [Option.orElse, show ("AWS_PAGER" : String) ≠ "AWS_DEFAULT_REGION" from by decide,
              show ("AWS_PAGER" : String) ≠ "LD_LIBRARY_PATH" from by decide,
              show ("AWS_PAGER" : String) ≠ "HOME" from by decide]
          · simp [Option.orElse, hk1, hk2, hk3, hk4]

/-! ### Path-layer lemmas -/


theorem splitSlash_ne_nil (s : GoStr) : splitSlash s ≠ [] := by
  cases s with
  | nil => simp [splitSlash]
  | cons c rest =>
    by_cases h : c = psep
    · simp [splitSlash, h]
    · simp only [splitSlash, if_neg h]
      cases hs : splitSlash rest <;> simp

theorem mem_splitSlash_noSep (s : GoStr) : ∀ t ∈ splitSlash s, psep ∉ t := by
  induction s with
  | nil =>
    intro t ht
    simp [splitSlash] at ht
    simp [ht]
  | cons c rest ih =>
    intro t ht
    by_cases h : c = psep
    · rw [splitSlash, if_pos h] at ht
      rcases List.mem_cons.mp ht with h' | h'
      · simp [h']
      · exact ih t h'
    · rw [splitSlash, if_neg h] at ht
      cases hs : splitSlash rest with
      | nil => exact absurd hs (splitSlash_ne_nil rest)
      | cons s' ss =>
        rw [hs] at ht
        rcases List.mem_cons.mp ht with h' | h'
        · subst h'
          intro hmem
          rcases List.mem_cons.mp hmem with h'' | h''
          · exact h h''.symm
          · exact ih s' (hs ▸ List.mem_cons_self s' ss) h''
        · exact ih t (hs ▸ List.mem_cons.mpr (Or.inr h'))

theorem splitSlash_noSep (s : GoStr) (h : psep ∉ s) : splitSlash s = [s] := by
  induction s with
  | nil => rfl
  | cons c rest ih =>
    have hc : ¬ c = psep := fun hh => h (hh ▸ List.mem_cons_self c rest)
    have hrest : psep ∉ rest := fun hh => h (List.mem_cons.mpr (Or.inr hh))
    rw [splitSlash, if_neg hc, ih hrest]

theorem splitSlash_sepCons (s : GoStr) : splitSlash (psep :: s) = [] :: splitSlash s := by
  simp [splitSlash]

theorem splitSlash_append_sep (x r : GoStr) (h : psep ∉ x) :
    splitSlash (x ++ psep :: r) = x :: splitSlash r := by
  induction x with
  | nil => simpa using splitSlash_sepCons r
  | cons c x' ih =>
    have hc : ¬ c = psep := fun hh => h (hh ▸ List.mem_cons_self c x')
    have hx' : psep ∉ x' := fun hh => h (List.mem_cons.mpr (Or.inr hh))
    rw [List.cons_append, splitSlash, if_neg hc, ih hx']

theorem splitSlash_concat_sep (w : GoStr) :
    splitSlash (w ++ [psep]) = splitSlash w ++ [[]] := by
  induction w with
  | nil => rfl
  | cons c w' ih =>
    by_cases h : c = psep
    · rw [List.cons_append, splitSlash, if_pos h, ih, splitSlash, if_pos h]
      rfl
    · rw [List.cons_append, splitSlash, if_neg h, ih, splitSlash, if_neg h]
      cases hs : splitSlash w' with
      | nil => exact absurd hs (splitSlash_ne_nil w')
      | cons s ss => rfl

theorem joinSegs_cons₂ (s t : GoStr) (r : List GoStr) :
    joinSegs (s :: t :: r) = s ++ psep :: joinSegs (t :: r) := rfl

theorem joinSegs_ne_nil_of_head (s : GoStr) (l : List GoStr) (h : s ≠ []) :
    joinSegs (s :: l) ≠ [] := by
  cases l with
  | nil => simpa [joinSegs]
  | cons t r =>
    rw [joinSegs_cons₂]
    cases s with
    | nil => exact absurd rfl h
    | cons a as => simp

theorem splitSlash_joinSegs (l : List GoStr) (hne : l ≠ [])
    (h : ∀ t ∈ l, psep ∉ t) : splitSlash (joinSegs l) = l := by
  induction l with
  | nil => exact absurd rfl hne
  | cons s rest ih =>
    cases rest with
    | nil =>
      show splitSlash (joinSegs [s]) = [s]
      exact splitSlash_noSep s (h s (List.mem_cons_self s []))
    | cons t r =>
      rw [joinSegs_cons₂,
        splitSlash_append_sep s _ (h s (List.mem_cons_self s (t :: r))),
        ih (by simp) (fun u hu => h u (List.mem_cons.mpr (Or.inr hu)))]

theorem cleanStep_good (out : List GoStr) (seg : GoStr)
    (hout : ∀ t ∈ out, goodSeg t) (hseg : psep ∉ seg) :
    ∀ t ∈ cleanStep true out seg, goodSeg t := by
  intro t ht
  unfold cleanStep at ht
  by_cases h1 : seg = [] ∨ seg = ['.']
  · rw [if_pos h1] at ht
    exact hout t ht
  · rw [if_neg h1] at ht
    by_cases h2 : seg = ['.', '.']
    · rw [if_pos h2] at ht
      by_cases h3 : out ≠ [] ∧ out.getLast? ≠ some ['.', '.']
      · rw [if_pos h3] at ht
        exact hout t (List.dropLast_subset out ht)
      · rw [if_neg h3, if_pos rfl] at ht
        exact hout t ht
    · rw [if_neg h2] at ht
      rcases List.mem_append.mp ht with h' | h'
      · exact hout t h'
      · have : t = seg := by simpa using h'
        subst this
        push_neg at h1
        exact ⟨h1.1, h1.2, h2, hseg⟩

theorem foldl_cleanStep_good (segs : List GoStr) :
    ∀ out, (∀ t ∈ segs, psep ∉ t) → (∀ t ∈ out, goodSeg t) →
      ∀ t ∈ List.foldl (cleanStep true) out segs, goodSeg t := by
  induction segs with
  | nil => intro out _ hout; exact hout
  | cons s rest ih =>
    intro out hsegs hout
    exact ih (cleanStep true out s)
      (fun t ht => hsegs t (List.mem_cons.mpr (Or.inr ht)))
      (cleanStep_good out s hout (hsegs s (List.mem_cons_self s rest)))

theorem cleanSegs_good (segs : List GoStr) (h : ∀ t ∈ segs, psep ∉ t) :
    goodSegs (cleanSegs true segs) :=
  foldl_cleanStep_good segs [] h (by intro t ht; cases ht)

theorem cleanStep_append_good (out : List GoStr) (seg : GoStr) (hseg : goodSeg seg) :
    cleanStep true out seg = out ++ [seg] := by
  obtain ⟨h1, h2, h3, _⟩ := hseg
  unfold cleanStep
  rw [if_neg (by push_neg; exact ⟨h1, h2⟩), if_neg h3]

theorem foldl_cleanStep_passthrough (l : List GoStr) :
    ∀ out, goodSegs l → List.foldl (cleanStep true) out l = out ++ l := by
  induction l with
  | nil => intro out _; simp
  | cons s rest ih =>
    intro out h
    rw [List.foldl_cons, cleanStep_append_good out s (h s (List.mem_cons_self s rest)),
      ih (out ++ [s]) (fun t ht => h t (List.mem_cons.mpr (Or.inr ht))), List.append_assoc]
    rfl

theorem cleanStep_empty (out : List GoStr) : cleanStep true out [] = out := by
  unfold cleanStep
  rw [if_pos (Or.inl rfl)]

theorem segsOf_renderAbs (l : List GoStr) (h : goodSegs l) :
    segsOf (renderAbs l) = l := by
  unfold segsOf renderAbs
  cases l with
  | nil =>
    show cleanSegs true (splitSlash [psep]) = []
    rfl
  | cons s rest =>
    rw [splitSlash_sepCons,
      splitSlash_joinSegs (s :: rest) (by simp)
        (fun t ht => (h t ht).2.2.2)]
    unfold cleanSegs
    rw [List.foldl_cons, cleanStep_empty,
      foldl_cleanStep_passthrough (s :: rest) [] h]
    rfl

theorem renderAbs_head (l : List GoStr) : (renderAbs l).head? = some psep := rfl

theorem renderAbs_ne_nil (l : List GoStr) : renderAbs l ≠ [] := by
  simp [renderAbs]

/-- On a rooted path, `goClean` is `renderAbs` of the resolved segments. -/
theorem goClean_rooted (p : GoStr) (hne : p ≠ []) (hr : p.head? = some psep) :
    goClean p = renderAbs (segsOf p) := by
  unfold goClean segsOf renderAbs
  rw [if_neg hne, if_pos hr]
  by_cases hout : cleanSegs true (splitSlash p) = []
  · rw [if_pos hout, hout]
    rfl
  · rw [if_neg hout]

theorem goClean_renderAbs (l : List GoStr) (h : goodSegs l) :
    goClean (renderAbs l) = renderAbs l := by
  rw [goClean_rooted (renderAbs l) (renderAbs_ne_nil l) (renderAbs_head l),
    segsOf_renderAbs l h]

/-- Every absolute resolution is a rooted render of resolved segments. -/
theorem goAbs_good (cwd p : GoStr) (hc : goIsAbs cwd = true) :
    goodSegs (segsOf (goAbs cwd p)) ∧ goAbs cwd p = renderAbs (segsOf (goAbs cwd p)) := by
  have base : ∀ q : GoStr, q ≠ [] → q.head? = some psep →
      goodSegs (segsOf (goClean q)) ∧ goClean q = renderAbs (segsOf (goClean q)) := by
    intro q hne hr
    have hgood : goodSegs (segsOf q) :=
      cleanSegs_good (splitSlash q) (mem_splitSlash_noSep q)
    have h1 : goClean q = renderAbs (segsOf q) := goClean_rooted q hne hr
    rw [h1, segsOf_renderAbs _ hgood]
    exact ⟨hgood, rfl⟩
  have hcwh : cwd.head? = some psep := of_decide_eq_true hc
  have hcw : cwd ≠ [] := by
    intro hh
    rw [hh] at hcwh
    cases hcwh
  unfold goAbs
  by_cases hp : goIsAbs p = true
  · rw [if_pos hp]
    have hph : p.head? = some psep := of_decide_eq_true hp
    have hpne : p ≠ [] := by
      intro hh; rw [hh] at hph; cases hph
    exact base p hpne hph
  · rw [if_neg hp]
    unfold goJoin
    rw [if_neg (fun hh => hcw hh.1), if_neg hcw]
    by_cases hpe : p = []
    · rw [if_pos hpe]
      exact base cwd hcw hcwh
    · rw [if_neg hpe]
      obtain ⟨c, r, rfl⟩ : ∃ c r, cwd = c :: r := by
        cases cwd with
        | nil => exact absurd rfl hcw
        | cons c r => exact ⟨c, r, rfl⟩
      have hcp : c = psep := by
        simpa using hcwh
      refine base _ (by simp) ?_
      rw [List.cons_append]
      simpa using hcp

theorem append_sep_inj (x : GoStr) : ∀ (y u v : GoStr), psep ∉ x → psep ∉ y →
    (x ++ psep :: u = y ++ psep :: v ↔ x = y ∧ u = v) := by
  induction x with
  | nil =>
    intro y u v _ hy
    cases y with
    | nil => simp
    | cons c y' =>
      have hc : c ≠ psep := fun hh => hy (hh ▸ List.mem_cons_self c y')
      constructor
      · intro h
        rw [List.nil_append, List.cons_append] at h
        injection h with h1 _
        exact absurd h1.symm hc
      · rintro ⟨h, _⟩; cases h
  | cons a x' ih =>
    intro y u v hx hy
    have hax' : psep ∉ x' := fun hh => hx (List.mem_cons.mpr (Or.inr hh))
    have ha : a ≠ psep := fun hh => hx (hh ▸ List.mem_cons_self a x')
    cases y with
    | nil =>
      constructor
      · intro h
        rw [List.cons_append, List.nil_append] at h
        injection h with h1 _
        exact absurd h1 ha
      · rintro ⟨h, _⟩; cases h
    | cons c y' =>
      have hy' : psep ∉ y' := fun hh => hy (List.mem_cons.mpr (Or.inr hh))
      constructor
      · intro h
        rw [List.cons_append, List.cons_append] at h
        injection h with h1 h2
        obtain ⟨hxy, huv⟩ := (ih y' u v hax' hy').mp h2
        exact ⟨by rw [h1, hxy], huv⟩
      · rintro ⟨h, rfl⟩
        rw [h]

theorem goPref_cons_same (c : Char) (a b : GoStr) :
    goPref (c :: a) (c :: b) = goPref a b := by
  simp [goPref]

theorem pref_append_sep (x y u v : GoStr) (hx : psep ∉ x) (hy : psep ∉ y) :
    (goPref (x ++ psep :: u) (y ++ psep :: v) = true ↔ x = y ∧ goPref u v = true) := by
  rw [goPref_iff, goPref_iff]
  constructor
  · rintro ⟨t, ht⟩
    rw [List.append_assoc, List.cons_append] at ht
    obtain ⟨hxy, huv⟩ := (append_sep_inj x y (u ++ t) v hx hy).mp ht
    exact ⟨hxy, t, huv⟩
  · rintro ⟨rfl, t, rfl⟩
    exact ⟨t, by rw [List.append_assoc, List.cons_append]⟩

theorem joinSegs_pref (b : List GoStr) : ∀ t : List GoStr,
    goodSegs b → goodSegs t → b ≠ [] →
    (goPref (joinSegs b ++ [psep]) (joinSegs t) = true ↔ ∃ e, e ≠ [] ∧ t = b ++ e) := by
  induction b with
  | nil => intro t _ _ hne; exact absurd rfl hne
  | cons x b' ih =>
    intro t hb ht _
    have hxg : goodSeg x := hb x (List.mem_cons_self x b')
    have hxs : psep ∉ x := hxg.2.2.2
    cases b' with
    | nil =>
      cases t with
      | nil =>
        constructor
        · intro h
          rw [goPref_iff] at h
          obtain ⟨r, hr⟩ := h
          exact absurd hr (by simp [joinSegs])
        · rintro ⟨e, he, hte⟩
          cases hte
      | cons y t' =>
        have hyg : goodSeg y := ht y (List.mem_cons_self y t')
        have hys : psep ∉ y := hyg.2.2.2
        cases t' with
        | nil =>
          constructor
          · intro h
            rw [goPref_iff] at h
            obtain ⟨r, hr⟩ := h
            exfalso
            apply hys
            show psep ∈ joinSegs [y]
            rw [← hr]
            simp [joinSegs]
          · rintro ⟨e, he, hte⟩
            rw [show ([x] ++ e) = x :: e from rfl] at hte
            injection hte with _ h2
            exact absurd h2.symm he
        | cons z t'' =>
          rw [joinSegs_cons₂,
            show joinSegs [x] ++ [psep] = x ++ psep :: [] from by simp [joinSegs],
            pref_append_sep x y [] _ hxs hys]
          constructor
          · rintro ⟨rfl, _⟩
            exact ⟨z :: t'', by simp, rfl⟩
          · rintro ⟨e, he, hte⟩
            rw [show ([x] ++ e) = x :: e from rfl] at hte
            injection hte with h1 _
            exact ⟨h1.symm, rfl⟩
    | cons w b'' =>
      have hJ : joinSegs (x :: w :: b'') ++ [psep]
          = x ++ psep :: (joinSegs (w :: b'') ++ [psep]) := by
        rw [joinSegs_cons₂, List.append_assoc]
        rfl
      cases t with
      | nil =>
        constructor
        · intro h
          rw [goPref_iff] at h
          obtain ⟨r, hr⟩ := h
          exact absurd hr (by simp [joinSegs])
        · rintro ⟨e, he, hte⟩
          cases hte
      | cons y t' =>
        have hyg : goodSeg y := ht y (List.mem_cons_self y t')
        have hys : psep ∉ y := hyg.2.2.2
        cases t' with
        | nil =>
          constructor
          · intro h
            rw [hJ, goPref_iff] at h
            obtain ⟨r, hr⟩ := h
            exfalso
            apply hys
            show psep ∈ joinSegs [y]
            rw [← hr]
            simp [joinSegs]
          · rintro ⟨e, he, hte⟩
            exfalso
            have hlen := congrArg List.length hte
            simp [List.length_append] at hlen
        | cons z t'' =>
          rw [hJ, joinSegs_cons₂, pref_append_sep x y _ _ hxs hys,
            ih (z :: t'')
              (fun u hu => hb u (List.mem_cons.mpr (Or.inr hu)))
              (fun u hu => ht u (List.mem_cons.mpr (Or.inr hu)))
              (by simp)]
          constructor
          · rintro ⟨rfl, e, he, hte⟩
            exact ⟨e, he, by rw [List.cons_append, ← hte]⟩
          · rintro ⟨e, he, hte⟩
            rw [List.cons_append] at hte
            injection hte with h1 h2
            exact ⟨h1.symm, e, he, h2⟩

theorem renderAbs_pref (b t : List GoStr) (hb : goodSegs b) (ht : goodSegs t)
    (hbne : b ≠ []) :
    (goPref (renderAbs b ++ [psep]) (renderAbs t) = true ↔ ∃ e, e ≠ [] ∧ t = b ++ e) := by
  rw [show renderAbs b ++ [psep] = psep :: (joinSegs b ++ [psep]) from by simp [renderAbs],
    renderAbs, goPref_cons_same]
  exact joinSegs_pref b t hb ht hbne

theorem renderAbs_pref_nil (t : List GoStr) (ht : goodSegs t) :
    goPref (renderAbs [] ++ [psep]) (renderAbs t) = false := by
  rw [show renderAbs [] ++ [psep] = psep :: [psep] from rfl, renderAbs, goPref_cons_same]
  cases t with
  | nil => rfl
  | cons y t' =>
    have hy : goodSeg y := ht y (List.mem_cons_self y t')
    obtain ⟨c, y', rfl⟩ : ∃ c y', y = c :: y' := by
      cases y with
      | nil => exact absurd rfl hy.1
      | cons c y' => exact ⟨c, y', rfl⟩
    have hc : ¬ psep = c := fun hh => hy.2.2.2 (hh ▸ List.mem_cons_self c y')
    cases t' with
    | nil => simp [joinSegs, goPref, hc]
    | cons z t'' =>
      rw [joinSegs_cons₂, List.cons_append]
      simp [goPref, hc]

theorem joinSegs_inj (b : List GoStr) : ∀ t, goodSegs b → goodSegs t →
    joinSegs b = joinSegs t → b = t := by
  induction b with
  | nil =>
    intro t _ ht h
    cases t with
    | nil => rfl
    | cons y t' =>
      exact absurd h.symm (joinSegs_ne_nil_of_head y t' (ht y (List.mem_cons_self y t')).1)
  | cons x b' ih =>
    intro t hb ht h
    have hxg : goodSeg x := hb x (List.mem_cons_self x b')
    cases t with
    | nil =>
      exact absurd h (joinSegs_ne_nil_of_head x b' hxg.1)
    | cons y t' =>
      have hyg : goodSeg y := ht y (List.mem_cons_self y t')
      cases b' with
      | nil =>
        cases t' with
        | nil =>
          show _ = _
          rw [show joinSegs [x] = x from rfl, show joinSegs [y] = y from rfl] at h
          rw [h]
        | cons z t'' =>
          exfalso
          rw [show joinSegs [x] = x from rfl, joinSegs_cons₂] at h
          apply hxg.2.2.2
          rw [h]
          simp
      | cons w b'' =>
        cases t' with
        | nil =>
          exfalso
          rw [show joinSegs [y] = y from rfl, joinSegs_cons₂] at h
          apply hyg.2.2.2
          rw [← h]
          simp
        | cons z t'' =>
          rw [joinSegs_cons₂, joinSegs_cons₂] at h
          obtain ⟨h1, h2⟩ := (append_sep_inj x y _ _ hxg.2.2.2 hyg.2.2.2).mp h
          rw [h1,
            ih (z :: t'')
              (fun u hu => hb u (List.mem_cons.mpr (Or.inr hu)))
              (fun u hu => ht u (List.mem_cons.mpr (Or.inr hu))) h2]

theorem renderAbs_inj (b t : List GoStr) (hb : goodSegs b) (ht : goodSegs t)
    (h : renderAbs b = renderAbs t) : b = t := by
  apply joinSegs_inj b t hb ht
  injection h

theorem dropWhile_all {p : Char → Bool} (l r : GoStr) (h : ∀ a ∈ l, p a = true) :
    List.dropWhile p (l ++ r) = List.dropWhile p r := by
  induction l with
  | nil => rfl
  | cons a t ih =>
    rw [List.cons_append, List.dropWhile_cons, if_pos (h a (List.mem_cons_self a t))]
    exact ih fun x hx => h x (List.mem_cons.mpr (Or.inr hx))

theorem joinSegs_concat (l : List GoStr) (s : GoStr) :
    joinSegs (l ++ [s]) = if l = [] then s else joinSegs l ++ psep :: s := by
  induction l with
  | nil => rfl
  | cons x l' ih =>
    rw [if_neg (by simp)]
    cases l' with
    | nil => rfl
    | cons w l'' =>
      have h1 : (x :: w :: l'') ++ [s] = x :: ((w :: l'') ++ [s]) := rfl
      have h2 : (w :: l'') ++ [s] = w :: (l'' ++ [s]) := rfl
      rw [h1, h2, joinSegs_cons₂ x w (l'' ++ [s]), ← h2, ih, if_neg (by simp),
        joinSegs_cons₂ x w l'', List.append_assoc]
      rfl

theorem goDir_renderAbs (l : List GoStr) (s : GoStr) (h : goodSegs (l ++ [s])) :
    goDir (renderAbs (l ++ [s])) = renderAbs l := by
  have hs : psep ∉ s := (h s (by simp)).2.2.2
  have hsall : ∀ a ∈ s.reverse, (fun c => !(c = psep : Bool)) a = true := by
    intro a ha
    have hmem : a ∈ s := List.mem_reverse.mp ha
    have hne : ¬(a = psep) := fun hh => hs (hh ▸ hmem)
    simp [decide_eq_false hne]
  cases l with
  | nil =>
    have hp : renderAbs ([] ++ [s]) = psep :: s := by simp [renderAbs, joinSegs]
    unfold goDir
    rw [hp, show (psep :: s).reverse = s.reverse ++ [psep] from by simp,
      dropWhile_all s.reverse [psep] hsall,
      show List.dropWhile (fun c => !(c = psep : Bool)) [psep] = [psep] from by
        simp [List.dropWhile],
      show ([psep] : GoStr).reverse = [psep] from rfl,
      if_neg (by simp)]
    rfl
  | cons x l' =>
    have hlg : goodSegs (x :: l') := fun u hu => h u (List.mem_append.mpr (Or.inl hu))
    have hp : renderAbs ((x :: l') ++ [s]) = psep :: (joinSegs (x :: l') ++ psep :: s) := by
      rw [renderAbs, joinSegs_concat, if_neg (by simp)]
    unfold goDir
    rw [hp]
    have hrev : (psep :: (joinSegs (x :: l') ++ psep :: s)).reverse
        = s.reverse ++ ([psep] ++ (joinSegs (x :: l')).reverse ++ [psep]) := by
      simp
    rw [hrev, dropWhile_all s.reverse _ hsall,
      show List.dropWhile (fun c => !(c = psep : Bool))
          ([psep] ++ (joinSegs (x :: l')).reverse ++ [psep])
        = [psep] ++ (joinSegs (x :: l')).reverse ++ [psep] from by
        simp [List.dropWhile]]
    have hrev2 : (([psep] ++ (joinSegs (x :: l')).reverse ++ [psep]) : GoStr).reverse
        = psep :: (joinSegs (x :: l') ++ [psep]) := by
      simp
    rw [hrev2, if_neg (by simp)]
    have hhead : (psep :: (joinSegs (x :: l') ++ [psep])).head? = some psep := rfl
    rw [goClean_rooted _ (by simp) hhead]
    unfold segsOf
    rw [splitSlash_sepCons, splitSlash_concat_sep,
      splitSlash_joinSegs (x :: l') (by simp) (fun u hu => (hlg u hu).2.2.2)]
    show renderAbs (cleanSegs true ([] :: ((x :: l') ++ [[]]))) = renderAbs (x :: l')
    unfold cleanSegs
    rw [List.foldl_cons, cleanStep_empty, List.foldl_append,
      foldl_cleanStep_passthrough (x :: l') [] hlg]
    simp only [List.nil_append, List.foldl_cons, List.foldl_nil, cleanStep_empty]

theorem safeJoin_ok_eq {cwd base name target : GoStr}
    (h : safeJoin cwd base name = .ok target) :
    target = goAbs cwd (goJoin base name) ∧
    (target = goAbs cwd base ∨ goPref (goAbs cwd base ++ [psep]) target = true) := by
  unfold safeJoin at h
  by_cases hc : goAbs cwd (goJoin base name) ≠ goAbs cwd base ∧
      goPref (goAbs cwd base ++ [psep]) (goAbs cwd (goJoin base name)) = false
  · rw [if_pos hc] at h
    cases h
  · rw [if_neg hc] at h
    injection h with h'
    refine ⟨h'.symm, ?_⟩
    rcases not_and_or.mp hc with h1 | h1
    · exact Or.inl (by rw [← h']; exact not_not.mp h1)
    · right
      rw [← h']
      rcases Bool.eq_false_or_eq_true
          (goPref (goAbs cwd base ++ [psep]) (goAbs cwd (goJoin base name))) with hg | hg
      · exact hg
      · exact absurd hg h1

theorem safeJoin_structure {cwd base name target : GoStr} (hc : goIsAbs cwd = true)
    (h : safeJoin cwd base name = .ok target) :
    ∃ bs e, goodSegs bs ∧ goodSegs (bs ++ e) ∧
      goAbs cwd base = renderAbs bs ∧ target = renderAbs (bs ++ e) ∧
      (e = [] ∨ (e ≠ [] ∧ bs ≠ [])) := by
  obtain ⟨htar, hdisj⟩ := safeJoin_ok_eq h
  obtain ⟨hbg, hbr⟩ := goAbs_good cwd base hc
  obtain ⟨htg, htr⟩ := goAbs_good cwd (goJoin base name) hc
  rcases hdisj with heq | hpref
  · refine ⟨segsOf (goAbs cwd base), [], hbg, by simpa using hbg, hbr, ?_, Or.inl rfl⟩
    rw [List.append_nil, heq]
    exact hbr
  · by_cases hbs : segsOf (goAbs cwd base) = []
    · exfalso
      rw [hbr, hbs, htar, htr, renderAbs_pref_nil _ htg] at hpref
      cases hpref
    · have hpref' : goPref
          (renderAbs (segsOf (goAbs cwd base)) ++ [psep])
          (renderAbs (segsOf (goAbs cwd (goJoin base name)))) = true := by
        rw [← hbr, ← htr, ← htar]
        exact hpref
      obtain ⟨e, he, hte⟩ :=
        (renderAbs_pref _ _ hbg htg hbs).mp hpref'
      exact ⟨segsOf (goAbs cwd base), e, hbg, by rw [← hte]; exact htg, hbr,
        by rw [htar, htr, hte], Or.inr ⟨he, hbs⟩⟩

theorem ancestorChain_renderAbs (l : List GoStr) (hl : goodSegs l) :
    ancestorChain (renderAbs l)
      = (List.range (l.length + 1)).map fun i => renderAbs (l.take i) := by
  unfold ancestorChain
  rw [segsOf_renderAbs l hl]

theorem chain_mem_of_take (bs : List GoStr) (hb : goodSegs bs) (i : Nat)
    (hi : i ≤ bs.length) :
    renderAbs (bs.take i) ∈ ancestorChain (renderAbs bs) := by
  rw [ancestorChain_renderAbs bs hb]
  exact List.mem_map.mpr ⟨i, List.mem_range.mpr (by omega), rfl⟩

theorem chain_under (bs e : List GoStr) (hb : goodSegs bs) (hbe : goodSegs (bs ++ e))
    (hok : e = [] ∨ (e ≠ [] ∧ bs ≠ []))
    (q : GoStr) (hq : q ∈ ancestorChain (renderAbs (bs ++ e))) :
    q ∈ ancestorChain (renderAbs bs) ∨ underBase (renderAbs bs) q := by
  rw [ancestorChain_renderAbs _ hbe] at hq
  obtain ⟨i, hi, rfl⟩ := List.mem_map.mp hq
  rw [List.mem_range] at hi
  by_cases hile : i ≤ bs.length
  · left
    rw [List.take_append_of_le_length hile]
    exact chain_mem_of_take bs hb i hile
  · push_neg at hile
    rcases hok with rfl | ⟨he, hbs⟩
    · exfalso
      simp at hi
      omega
    · have htk : (bs ++ e).take i = bs ++ e.take (i - bs.length) := by
        conv_lhs => rw [show i = bs.length + (i - bs.length) from by omega]
        exact List.take_append (i - bs.length)
      rw [htk]
      right
      refine Or.inr ((renderAbs_pref bs _ hb ?_ hbs).mpr ⟨e.take (i - bs.length), ?_, rfl⟩)
      · intro u hu
        rcases List.mem_append.mp hu with h' | h'
        · exact hbe u (List.mem_append.mpr (Or.inl h'))
        · exact hbe u (List.mem_append.mpr (Or.inr (List.take_subset _ _ h')))
      · have hpos : 0 < i - bs.length := by omega
        cases e with
        | nil => exact absurd rfl he
        | cons a e' =>
          cases hn : i - bs.length with
          | zero => omega
          | succ m => simp [hn]

theorem target_under (bs e : List GoStr) (hb : goodSegs bs) (hbe : goodSegs (bs ++ e))
    (hok : e = [] ∨ (e ≠ [] ∧ bs ≠ [])) :
    underBase (renderAbs bs) (renderAbs (bs ++ e)) := by
  rcases hok with rfl | ⟨he, hbs⟩
  · left
    rw [List.append_nil]
  · exact Or.inr ((renderAbs_pref bs (bs ++ e) hb hbe hbs).mpr ⟨e, he, rfl⟩)

theorem goDir_target_chain (bs e : List GoStr) (hbe : goodSegs (bs ++ e))
    (hok : e = [] ∨ (e ≠ [] ∧ bs ≠ []))
    (q : GoStr) (hq : q ∈ ancestorChain (goDir (renderAbs (bs ++ e)))) :
    q ∈ ancestorChain (renderAbs bs) ∨ underBase (renderAbs bs) q := by
  have hb : goodSegs bs := fun u hu => hbe u (List.mem_append.mpr (Or.inl hu))
  rcases hok with rfl | ⟨he, hbs⟩
  · rw [List.append_nil] at hq
    rcases List.eq_nil_or_concat bs with rfl | ⟨l, s, rfl⟩
    · left
      have hgd : goDir (renderAbs ([] : List GoStr)) = renderAbs [] := rfl
      rwa [hgd] at hq
    · left
      rw [List.concat_eq_append] at hb hq ⊢
      have hl : goodSegs l := fun u hu => hb u (List.mem_append.mpr (Or.inl hu))
      rw [goDir_renderAbs l s hb, ancestorChain_renderAbs l hl] at hq
      obtain ⟨i, hi, rfl⟩ := List.mem_map.mp hq
      rw [List.mem_range] at hi
      rw [show l.take i = (l ++ [s]).take i from
        (List.take_append_of_le_length (by omega)).symm]
      exact chain_mem_of_take (l ++ [s]) hb i (by simp; omega)
  · rcases List.eq_nil_or_concat e with rfl | ⟨e', s, rfl⟩
    · exact absurd rfl he
    · rw [List.concat_eq_append] at hbe hq
      rw [← List.append_assoc] at hq
      have hbe' : goodSegs ((bs ++ e') ++ [s]) := by
        rw [List.append_assoc]
        exact hbe
      rw [goDir_renderAbs (bs ++ e') s hbe'] at hq
      have hge' : goodSegs (bs ++ e') :=
        fun u hu => hbe' u (List.mem_append.mpr (Or.inl hu))
      by_cases he' : e' = []
      · exact chain_under bs e' hb hge' (Or.inl he') q hq
      · exact chain_under bs e' hb hge' (Or.inr ⟨he', hbs⟩) q hq

theorem applyOp_dirs_mono (fs : Fs) (op : FsOp) (q : GoStr) (h : q ∈ fs.dirs) :
    q ∈ (applyOp fs op).dirs := by
  cases op with
  | mkdirAll p => exact List.mem_append.mpr (Or.inl h)
  | openTrunc p => exact h
  | write p n => exact h

theorem applyOp_files_mono (fs : Fs) (op : FsOp) (q : GoStr) (h : q ∈ fs.files) :
    q ∈ (applyOp fs op).files := by
  cases op with
  | mkdirAll p => exact h
  | openTrunc p =>
    show q ∈ (if fs.files.contains p then fs.files else fs.files ++ [p])
    by_cases hc : fs.files.contains p
    · rw [if_pos hc]; exact h
    · rw [if_neg hc]; exact List.mem_append.mpr (Or.inl h)
  | write p n => exact h

theorem applyOp_mkdir_new (fs : Fs) (p q : GoStr)
    (h : q ∈ (applyOp fs (.mkdirAll p)).dirs) : q ∈ fs.dirs ∨ q ∈ ancestorChain p := by
  rcases List.mem_append.mp h with h' | h'
  · exact Or.inl h'
  · exact Or.inr (List.mem_of_mem_filter h')

theorem applyOp_open_new (fs : Fs) (p q : GoStr)
    (h : q ∈ (applyOp fs (.openTrunc p)).files) : q ∈ fs.files ∨ q = p := by
  revert h
  show q ∈ (if fs.files.contains p then fs.files else fs.files ++ [p]) → _
  by_cases hc : fs.files.contains p
  · rw [if_pos hc]; exact Or.inl
  · rw [if_neg hc]
    intro h
    rcases List.mem_append.mp h with h' | h'
    · exact Or.inl h'
    · exact Or.inr (by simpa using h')

theorem applyOp_mkdir_files (fs : Fs) (p : GoStr) :
    (applyOp fs (.mkdirAll p)).files = fs.files := rfl

theorem applyOp_open_dirs (fs : Fs) (p : GoStr) :
    (applyOp fs (.openTrunc p)).dirs = fs.dirs := rfl

theorem applyOp_write (fs : Fs) (p : GoStr) (n : Nat) :
    applyOp fs (.write p n) = fs := rfl


theorem untarLoop_other (cwd dst : GoStr) (e : TarEntry) (rest : List TarEntry)
    (extracted : Int) (h : e.typeflag = .other) :
    untarLoop cwd dst (e :: rest) extracted = untarLoop cwd dst rest extracted := by
  obtain ⟨nm, tf, sz, ct⟩ := e
  cases tf with
  | other => rfl
  | dir => simp at h
  | reg => simp at h

theorem untarLoop_err (cwd dst : GoStr) (e : TarEntry) (rest : List TarEntry)
    (extracted : Int) (n : GoStr) (h : e.typeflag ≠ .other)
    (hsj : safeJoin cwd dst e.name = .error n) :
    untarLoop cwd dst (e :: rest) extracted = (.error (.unsafePath n), []) := by
  obtain ⟨nm, tf, sz, ct⟩ := e
  cases tf with
  | other => exact absurd rfl h
  | dir =>
    have h0 : untarLoop cwd dst (⟨nm, .dir, sz, ct⟩ :: rest) extracted
        = match safeJoin cwd dst nm with
          | .error n => (.error (.unsafePath n), [])
          | .ok target =>
            match untarLoop cwd dst rest extracted with
            | (r, ops) => (r, .mkdirAll target :: ops) := rfl
    rw [h0, hsj]
  | reg =>
    have h0 : untarLoop cwd dst (⟨nm, .reg, sz, ct⟩ :: rest) extracted
        = match safeJoin cwd dst nm with
          | .error n => (.error (.unsafePath n), [])
          | .ok target =>
            if sz < 0 ∨ sz > maxEntryBytes then (.error (.entryTooLarge sz), [])
            else if extracted + sz > maxExtractBytes then (.error .totalTooLarge, [])
            else
              match untarLoop cwd dst rest (extracted + sz) with
              | (r, ops) =>
                (r, .mkdirAll (goDir target) :: .openTrunc target ::
                  .write target (min sz.toNat ct) :: ops) := rfl
    rw [h0, hsj]

theorem untarLoop_dir_ok (cwd dst : GoStr) (e : TarEntry) (rest : List TarEntry)
    (extracted : Int) (target : GoStr) (h : e.typeflag = .dir)
    (hsj : safeJoin cwd dst e.name = .ok target) :
    untarLoop cwd dst (e :: rest) extracted
      = ((untarLoop cwd dst rest extracted).1,
         .mkdirAll target :: (untarLoop cwd dst rest extracted).2) := by
  obtain ⟨nm, tf, sz, ct⟩ := e
  cases tf with
  | other => simp at h
  | reg => simp at h
  | dir =>
    have h0 : untarLoop cwd dst (⟨nm, .dir, sz, ct⟩ :: rest) extracted
        = match safeJoin cwd dst nm with
          | .error n => (.error (.unsafePath n), [])
          | .ok target =>
            match untarLoop cwd dst rest extracted with
            | (r, ops) => (r, .mkdirAll target :: ops) := rfl
    rw [h0, hsj]

theorem untarLoop_reg_large (cwd dst : GoStr) (e : TarEntry) (rest : List TarEntry)
    (extracted : Int) (target : GoStr) (h : e.typeflag = .reg)
    (hsj : safeJoin cwd dst e.name = .ok target)
    (hsize : e.size < 0 ∨ e.size > maxEntryBytes) :
    untarLoop cwd dst (e :: rest) extracted = (.error (.entryTooLarge e.size), []) := by
  obtain ⟨nm, tf, sz, ct⟩ := e
  cases tf with
  | other => simp at h
  | dir => simp at h
  | reg =>
    have h0 : untarLoop cwd dst (⟨nm, .reg, sz, ct⟩ :: rest) extracted
        = match safeJoin cwd dst nm with
          | .error n => (.error (.unsafePath n), [])
          | .ok target =>
            if sz < 0 ∨ sz > maxEntryBytes then (.error (.entryTooLarge sz), [])
            else if extracted + sz > maxExtractBytes then (.error .totalTooLarge, [])
            else
              match untarLoop cwd dst rest (extracted + sz) with
              | (r, ops) =>
                (r, .mkdirAll (goDir target) :: .openTrunc target ::
                  .write target (min sz.toNat ct) :: ops) := rfl
    dsimp only at hsize ⊢
    rw [h0, hsj]
    dsimp only
    rw [if_pos hsize]

theorem untarLoop_reg_total (cwd dst : GoStr) (e : TarEntry) (rest : List TarEntry)
    (extracted : Int) (target : GoStr) (h : e.typeflag = .reg)
    (hsj : safeJoin cwd dst e.name = .ok target)
    (hsize : ¬(e.size < 0 ∨ e.size > maxEntryBytes))
    (htot : extracted + e.size > maxExtractBytes) :
    untarLoop cwd dst (e :: rest) extracted = (.error .totalTooLarge, []) := by
  obtain ⟨nm, tf, sz, ct⟩ := e
  cases tf with
  | other => simp at h
  | dir => simp at h
  | reg =>
    have h0 : untarLoop cwd dst (⟨nm, .reg, sz, ct⟩ :: rest) extracted
        = match safeJoin cwd dst nm with
          | .error n => (.error (.unsafePath n), [])
          | .ok target =>
            if sz < 0 ∨ sz > maxEntryBytes then (.error (.entryTooLarge sz), [])
            else if extracted + sz > maxExtractBytes then (.error .totalTooLarge, [])
            else
              match untarLoop cwd dst rest (extracted + sz) with
              | (r, ops) =>
                (r, .mkdirAll (goDir target) :: .openTrunc target ::
                  .write target (min sz.toNat ct) :: ops) := rfl
    dsimp only at hsize htot ⊢
    rw [h0, hsj]
    dsimp only
    rw [if_neg hsize, if_pos htot]

theorem untarLoop_reg_ok (cwd dst : GoStr) (e : TarEntry) (rest : List TarEntry)
    (extracted : Int) (target : GoStr) (h : e.typeflag = .reg)
    (hsj : safeJoin cwd dst e.name = .ok target)
    (hsize : ¬(e.size < 0 ∨ e.size > maxEntryBytes))
    (htot : ¬(extracted + e.size > maxExtractBytes)) :
    untarLoop cwd dst (e :: rest) extracted
      = ((untarLoop cwd dst rest (extracted + e.size)).1,
         .mkdirAll (goDir target) :: .openTrunc target ::
           .write target (min e.size.toNat e.content) ::
           (untarLoop cwd dst rest (extracted + e.size)).2) := by
  obtain ⟨nm, tf, sz, ct⟩ := e
  cases tf with
  | other => simp at h
  | dir => simp at h
  | reg =>
    have h0 : untarLoop cwd dst (⟨nm, .reg, sz, ct⟩ :: rest) extracted
        = match safeJoin cwd dst nm with
          | .error n => (.error (.unsafePath n), [])
          | .ok target =>
            if sz < 0 ∨ sz > maxEntryBytes then (.error (.entryTooLarge sz), [])
            else if extracted + sz > maxExtractBytes then (.error .totalTooLarge, [])
            else
              match untarLoop cwd dst rest (extracted + sz) with
              | (r, ops) =>
                (r, .mkdirAll (goDir target) :: .openTrunc target ::
                  .write target (min sz.toNat ct) :: ops) := rfl
    dsimp only at hsize htot ⊢
    rw [h0, hsj]
    dsimp only
    rw [if_neg hsize, if_neg htot]

theorem untarLoop_no_escape (cwd dst : GoStr) (hcwd : goIsAbs cwd = true) :
    ∀ (entries : List TarEntry) (extracted : Int) (fs : Fs),
      (∀ q ∈ ancestorChain (goAbs cwd dst), q ∈ fs.dirs) →
      (∀ p ∈ (applyOps fs (untarLoop cwd dst entries extracted).2).dirs,
          p ∉ fs.dirs → underBase (goAbs cwd dst) p) ∧
      (∀ p ∈ (applyOps fs (untarLoop cwd dst entries extracted).2).files,
          p ∉ fs.files → underBase (goAbs cwd dst) p) := by
  intro entries
  induction entries with
  | nil =>
    intro extracted fs hchain
    constructor <;> (intro p hp hnp; exact absurd hp hnp)
  | cons e rest ih =>
    intro extracted fs hchain
    by_cases hother : e.typeflag = .other
    · rw [untarLoop_other cwd dst e rest extracted hother]
      exact ih extracted fs hchain
    · cases hsj : safeJoin cwd dst e.name with
      | error n =>
        rw [untarLoop_err cwd dst e rest extracted n hother hsj]
        constructor <;> (intro p hp hnp; exact absurd hp hnp)
      | ok target =>
        obtain ⟨bs, ex, hbg, hbeg, hbase, htgt, hok⟩ := safeJoin_structure hcwd hsj
        have htargetChain : ∀ q, q ∈ ancestorChain target → q ∉ fs.dirs →
            underBase (goAbs cwd dst) q := by
          intro q hq hnq
          rw [htgt] at hq
          rcases chain_under bs ex hbg hbeg hok q hq with hch | hub
          · exact absurd (hchain q (by rw [hbase]; exact hch)) hnq
          · rw [hbase]
            exact hub
        have hdirChain : ∀ q, q ∈ ancestorChain (goDir target) → q ∉ fs.dirs →
            underBase (goAbs cwd dst) q := by
          intro q hq hnq
          rw [htgt] at hq
          rcases goDir_target_chain bs ex hbeg hok q hq with hch | hub
          · exact absurd (hchain q (by rw [hbase]; exact hch)) hnq
          · rw [hbase]
            exact hub
        have htargetUnder : underBase (goAbs cwd dst) target := by
          rw [htgt, hbase]
          exact target_under bs ex hbg hbeg hok
        cases hflag : e.typeflag with
        | other => exact absurd hflag hother
        | dir =>
          rw [untarLoop_dir_ok cwd dst e rest extracted target hflag hsj]
          have hchain₁ : ∀ q ∈ ancestorChain (goAbs cwd dst),
              q ∈ (applyOp fs (.mkdirAll target)).dirs :=
            fun q hq => applyOp_dirs_mono fs _ q (hchain q hq)
          obtain ⟨ihd, ihf⟩ := ih extracted (applyOp fs (.mkdirAll target)) hchain₁
          constructor
          · intro p hp hnp
            by_cases hpfs₁ : p ∈ (applyOp fs (.mkdirAll target)).dirs
            · rcases applyOp_mkdir_new fs target p hpfs₁ with h' | h'
              · exact absurd h' hnp
              · exact htargetChain p h' hnp
            · exact ihd p hp hpfs₁
          · intro p hp hnp
            have hnp₁ : p ∉ (applyOp fs (.mkdirAll target)).files := by
              rwa [applyOp_mkdir_files]
            exact ihf p hp hnp₁
        | reg =>
          by_cases hsize : e.size < 0 ∨ e.size > maxEntryBytes
          · rw [untarLoop_reg_large cwd dst e rest extracted target hflag hsj hsize]
            constructor <;> (intro p hp hnp; exact absurd hp hnp)
          · by_cases htot : extracted + e.size > maxExtractBytes
            · rw [untarLoop_reg_total cwd dst e rest extracted target hflag hsj hsize htot]
              constructor <;> (intro p hp hnp; exact absurd hp hnp)
            · rw [untarLoop_reg_ok cwd dst e rest extracted target hflag hsj hsize htot]
              have hchain₂ : ∀ q ∈ ancestorChain (goAbs cwd dst),
                  q ∈ (applyOp (applyOp fs (.mkdirAll (goDir target)))
                    (.openTrunc target)).dirs :=
                fun q hq => applyOp_dirs_mono _ _ q
                  (applyOp_dirs_mono fs _ q (hchain q hq))
              obtain ⟨ihd, ihf⟩ := ih (extracted + e.size)
                (applyOp (applyOp fs (.mkdirAll (goDir target))) (.openTrunc target)) hchain₂
              constructor
              · intro p hp hnp
                by_cases hpfs₂ : p ∈ (applyOp (applyOp fs (.mkdirAll (goDir target)))
                    (.openTrunc target)).dirs
                · have hpfs₁ : p ∈ (applyOp fs (.mkdirAll (goDir target))).dirs := by
                    rwa [applyOp_open_dirs] at hpfs₂
                  rcases applyOp_mkdir_new fs (goDir target) p hpfs₁ with h' | h'
                  · exact absurd h' hnp
                  · exact hdirChain p h' hnp
                · exact ihd p hp hpfs₂
              · intro p hp hnp
                by_cases hpfs₂ : p ∈ (applyOp (applyOp fs (.mkdirAll (goDir target)))
                    (.openTrunc target)).files
                · rcases applyOp_open_new (applyOp fs (.mkdirAll (goDir target))) target p
                      hpfs₂ with h' | h'
                  · have hzz : p ∈ fs.files := by
                      rwa [applyOp_mkdir_files] at h'
                    exact absurd hzz hnp
                  · rw [h']
                    exact htargetUnder
                · exact ihf p hp hpfs₂

/-- Counterexample to claim C1 as stated: the entry name `a/../b`
contains a `..` segment and the name `/etc/passwd` is absolute, yet
`filepath.Join` cleans both to paths inside the destination root, so
`safeJoin` accepts them and extraction succeeds instead of failing with a
path-escape error. -/
theorem safeJoin_dotdot_cex :
    hasDotDotSeg "a/../b".data = true ∧
    safeJoin "/w".data "/d".data "a/../b".data = .ok "/d/b".data ∧
    goIsAbs "/etc/passwd".data = true ∧
    safeJoin "/w".data "/d".data "/etc/passwd".data = .ok "/d/etc/passwd".data ∧
    (untarGzSafe "/w".data [⟨"a/../b".data, .reg, 3, 3⟩] "/d".data).1 = .ok () ∧
    (untarGzSafe "/w".data [⟨"a/../b".data, .reg, 3, 3⟩] "/d".data).2
      = [.mkdirAll "/d".data, .openTrunc "/d/b".data, .write "/d/b".data 3] :=
  ⟨by decide, rfl, by decide, rfl, rfl, rfl⟩

/-- Claim C1 amended: (1) `safeJoin` succeeds exactly when the cleaned
absolute join equals the base or starts with the base followed by the
path separator; (2) every non-skipped entry whose name `safeJoin` rejects
aborts extraction with a path-escape error before any filesystem
operation of that entry; (3) extraction never creates a file or a
directory outside the destination root (provided the root and its
ancestors exist).  A name containing `..` segments or absolute components
is rejected only when its cleaned join actually escapes the root. -/
theorem safeJoin_escape_safety :
    (∀ cwd base name, (∃ t, safeJoin cwd base name = .ok t) ↔
      specSafeJoinOk cwd base name) ∧
    (∀ cwd dst e rest extracted n, e.typeflag ≠ TarType.other →
      safeJoin cwd dst e.name = .error n →
      untarLoop cwd dst (e :: rest) extracted = (.error (.unsafePath n), [])) ∧
    (∀ cwd dst entries fs,
      goIsAbs cwd = true →
      (∀ q ∈ ancestorChain (goAbs cwd dst), q ∈ fs.dirs) →
      (∀ p ∈ (applyOps fs (untarGzSafe cwd entries dst).2).dirs,
          p ∉ fs.dirs → underBase (goAbs cwd dst) p) ∧
      (∀ p ∈ (applyOps fs (untarGzSafe cwd entries dst).2).files,
          p ∉ fs.files → underBase (goAbs cwd dst) p)) := by
  refine ⟨?_, ?_, ?_⟩
  · intro cwd base name
    constructor
    · rintro ⟨t, ht⟩
      obtain ⟨htar, hd⟩ := safeJoin_ok_eq ht
      rw [htar] at hd
      exact hd
    · intro hspec
      refine ⟨goAbs cwd (goJoin base name), ?_⟩
      unfold safeJoin
      rw [if_neg]
      rintro ⟨hne, hpf⟩
      rcases hspec with h | h
      · exact hne h
      · rw [h] at hpf
        cases hpf
  · intro cwd dst e rest extracted n hne hsj
    exact untarLoop_err cwd dst e rest extracted n hne hsj
  · intro cwd dst entries fs hcwd hchain
    exact untarLoop_no_escape cwd dst hcwd entries 0 fs hchain

/-- Witness for the amended C1: a benign entry under root `/d` with the
root and its ancestors present. -/
theorem safeJoin_escape_safety_witness :
    ((∃ t, safeJoin "/w".data "/d".data "f".data = .ok t)) ∧
    ((∀ p ∈ (applyOps ⟨["/".data, "/d".data], []⟩
        (untarGzSafe "/w".data [⟨"f".data, .reg, 3, 3⟩] "/d".data).2).dirs,
      p ∉ (⟨["/".data, "/d".data], []⟩ : Fs).dirs →
        underBase (goAbs "/w".data "/d".data) p) ∧
     (∀ p ∈ (applyOps ⟨["/".data, "/d".data], []⟩
        (untarGzSafe "/w".data [⟨"f".data, .reg, 3, 3⟩] "/d".data).2).files,
      p ∉ (⟨["/".data, "/d".data], []⟩ : Fs).files →
        underBase (goAbs "/w".data "/d".data) p)) :=
  ⟨(safeJoin_escape_safety.1 "/w".data "/d".data "f".data).mpr (by decide),
   safeJoin_escape_safety.2.2 "/w".data "/d".data [⟨"f".data, .reg, 3, 3⟩]
     ⟨["/".data, "/d".data], []⟩ (by decide) (by decide)⟩

theorem untarLoop_write_le (cwd dst : GoStr) :
    ∀ (entries : List TarEntry) (extracted : Int) (p : GoStr) (n : Nat),
      FsOp.write p n ∈ (untarLoop cwd dst entries extracted).2 →
      n ≤ maxEntryBytes.toNat := by
  intro entries
  induction entries with
  | nil =>
    intro extracted p n h
    exact absurd h (List.not_mem_nil _)
  | cons e rest ih =>
    intro extracted p n h
    by_cases hother : e.typeflag = .other
    · rw [untarLoop_other cwd dst e rest extracted hother] at h
      exact ih extracted p n h
    · cases hsj : safeJoin cwd dst e.name with
      | error nn =>
        rw [untarLoop_err cwd dst e rest extracted nn hother hsj] at h
        exact absurd h (List.not_mem_nil _)
      | ok target =>
        cases hflag : e.typeflag with
        | other => exact absurd hflag hother
        | dir =>
          rw [untarLoop_dir_ok cwd dst e rest extracted target hflag hsj] at h
          rcases List.mem_cons.mp h with h' | h'
          · exact FsOp.noConfusion h'
          · exact ih extracted p n h'
        | reg =>
          by_cases hsize : e.size < 0 ∨ e.size > maxEntryBytes
          · rw [untarLoop_reg_large cwd dst e rest extracted target hflag hsj hsize] at h
            exact absurd h (List.not_mem_nil _)
          · by_cases htot : extracted + e.size > maxExtractBytes
            · rw [untarLoop_reg_total cwd dst e rest extracted target hflag hsj
                hsize htot] at h
              exact absurd h (List.not_mem_nil _)
            · rw [untarLoop_reg_ok cwd dst e rest extracted target hflag hsj
                hsize htot] at h
              rcases List.mem_cons.mp h with h' | h'
              · exact FsOp.noConfusion h'
              · rcases List.mem_cons.mp h' with h'' | h''
                · exact FsOp.noConfusion h''
                · rcases List.mem_cons.mp h'' with h3 | h3
                  · injection h3 with h4 h5
                    rw [h5]
                    push_neg at hsize
                    calc min e.size.toNat e.content
                        ≤ e.size.toNat := min_le_left _ _
                      _ ≤ maxEntryBytes.toNat := Int.toNat_le_toNat hsize.2
                  · exact ih (extracted + e.size) p n h3

/-- Claim C4: a regular entry whose declared size is negative or above
the 128 MiB per-entry limit aborts extraction with an entry-too-large
error before any filesystem operation of that entry; every write the
extractor ever performs is bounded by the per-entry limit; and an
accepted entry writes exactly `min declaredSize availableBytes` bytes,
which never exceeds its declared size. -/
theorem untar_entry_limit :
    (∀ cwd dst e rest extracted target, e.typeflag = TarType.reg →
      safeJoin cwd dst e.name = .ok target →
      (e.size < 0 ∨ e.size > maxEntryBytes) →
      untarLoop cwd dst (e :: rest) extracted
        = (.error (.entryTooLarge e.size), [])) ∧
    (∀ cwd dst entries extracted p n,
      FsOp.write p n ∈ (untarLoop cwd dst entries extracted).2 →
      n ≤ maxEntryBytes.toNat) ∧
    (∀ cwd dst e rest extracted target, e.typeflag = TarType.reg →
      safeJoin cwd dst e.name = .ok target →
      ¬(e.size < 0 ∨ e.size > maxEntryBytes) →
      ¬(extracted + e.size > maxExtractBytes) →
      (untarLoop cwd dst (e :: rest) extracted).2
        = .mkdirAll (goDir target) :: .openTrunc target ::
          .write target (min e.size.toNat e.content) ::
          (untarLoop cwd dst rest (extracted + e.size)).2 ∧
      min e.size.toNat e.content ≤ e.size.toNat) := by
  refine ⟨?_, ?_, ?_⟩
  · intro cwd dst e rest extracted target hflag hsj hsize
    exact untarLoop_reg_large cwd dst e rest extracted target hflag hsj hsize
  · intro cwd dst entries extracted p n h
    exact untarLoop_write_le cwd dst entries extracted p n h
  · intro cwd dst e rest extracted target hflag hsj hsize htot
    constructor
    · rw [untarLoop_reg_ok cwd dst e rest extracted target hflag hsj hsize htot]
    · exact min_le_left _ _

/-- Witness for C4: an oversized entry is rejected with no operation, and
a 3-byte entry writes 3 bytes. -/
theorem untar_entry_limit_witness :
    untarLoop "/w".data "/d".data [⟨"big".data, .reg, maxEntryBytes + 1, 0⟩] 0
      = (.error (.entryTooLarge (maxEntryBytes + 1)), []) ∧
    (untarLoop "/w".data "/d".data [⟨"f".data, .reg, 3, 3⟩] 0).2
      = .mkdirAll (goDir "/d/f".data) :: .openTrunc "/d/f".data ::
        .write "/d/f".data (min (3 : Int).toNat 3) ::
        (untarLoop "/w".data "/d".data [] (0 + 3)).2 :=
  ⟨untar_entry_limit.1 "/w".data "/d".data ⟨"big".data, .reg, maxEntryBytes + 1, 0⟩ [] 0
      "/d/big".data rfl (by rfl) (by right; simp [maxEntryBytes]),
   (untar_entry_limit.2.2 "/w".data "/d".data ⟨"f".data, .reg, 3, 3⟩ [] 0 "/d/f".data rfl
      (by rfl) (by simp [maxEntryBytes]) (by simp [maxExtractBytes])).1⟩

theorem untarLoop_total_err (cwd dst : GoStr) :
    ∀ (entries : List TarEntry) (extracted : Int),
      0 ≤ extracted → extracted ≤ maxExtractBytes →
      (∀ e ∈ entries, e.typeflag ≠ TarType.other →
        ∃ t, safeJoin cwd dst e.name = .ok t) →
      (∀ e ∈ entries, e.typeflag = TarType.reg →
        0 ≤ e.size ∧ e.size ≤ maxEntryBytes) →
      extracted + regSizeSum entries > maxExtractBytes →
      (untarLoop cwd dst entries extracted).1 = .error .totalTooLarge := by
  intro entries
  induction entries with
  | nil =>
    intro extracted h0 hle _ _ hsum
    exfalso
    simp [regSizeSum] at hsum
    omega
  | cons e rest ih =>
    intro extracted h0 hle hsj hsz hsum
    have hsumcons : regSizeSum (e :: rest)
        = (if e.typeflag = TarType.reg then e.size else 0) + regSizeSum rest := by
      simp [regSizeSum]
    have hsjtail : ∀ e' ∈ rest, e'.typeflag ≠ TarType.other →
        ∃ t, safeJoin cwd dst e'.name = .ok t :=
      fun e' he' => hsj e' (List.mem_cons.mpr (Or.inr he'))
    have hsztail : ∀ e' ∈ rest, e'.typeflag = TarType.reg →
        0 ≤ e'.size ∧ e'.size ≤ maxEntryBytes :=
      fun e' he' => hsz e' (List.mem_cons.mpr (Or.inr he'))
    by_cases hother : e.typeflag = .other
    · rw [untarLoop_other cwd dst e rest extracted hother]
      apply ih extracted h0 hle hsjtail hsztail
      rw [hsumcons, if_neg (by rw [hother]; simp)] at hsum
      omega
    · obtain ⟨t, hsjok⟩ := hsj e (List.mem_cons_self e rest) hother
      cases hflag : e.typeflag with
      | other => exact absurd hflag hother
      | dir =>
        rw [untarLoop_dir_ok cwd dst e rest extracted t hflag hsjok]
        apply ih extracted h0 hle hsjtail hsztail
        rw [hsumcons, if_neg (by rw [hflag]; simp)] at hsum
        omega
      | reg =>
        obtain ⟨hs0, hsle⟩ := hsz e (List.mem_cons_self e rest) hflag
        have hsizeok : ¬(e.size < 0 ∨ e.size > maxEntryBytes) := by
          push_neg
          exact ⟨hs0, hsle⟩
        by_cases htot : extracted + e.size > maxExtractBytes
        · rw [untarLoop_reg_total cwd dst e rest extracted t hflag hsjok hsizeok htot]
        · rw [untarLoop_reg_ok cwd dst e rest extracted t hflag hsjok hsizeok htot]
          push_neg at htot
          apply ih (extracted + e.size) (by omega) htot hsjtail hsztail
          rw [hsumcons, if_pos hflag] at hsum
          omega

/-- Claim C5: the running total of declared sizes is checked against the
512 MiB limit before a regular entry's copy begins — a regular entry that
would push the total over the limit aborts extraction with a total-size
error and no filesystem operation; and for every entry sequence of
well-formed entries whose cumulative declared regular-file size exceeds
the limit, extraction fails with the total-size error. -/
theorem untar_total_limit :
    (∀ cwd dst e rest extracted target, e.typeflag = TarType.reg →
      safeJoin cwd dst e.name = .ok target →
      ¬(e.size < 0 ∨ e.size > maxEntryBytes) →
      extracted + e.size > maxExtractBytes →
      untarLoop cwd dst (e :: rest) extracted = (.error .totalTooLarge, [])) ∧
    (∀ cwd dst entries,
      (∀ e ∈ entries, e.typeflag ≠ TarType.other →
        ∃ t, safeJoin cwd dst e.name = .ok t) →
      (∀ e ∈ entries, e.typeflag = TarType.reg →
        0 ≤ e.size ∧ e.size ≤ maxEntryBytes) →
      regSizeSum entries > maxExtractBytes →
      (untarGzSafe cwd entries dst).1 = .error .totalTooLarge) := by
  constructor
  · intro cwd dst e rest extracted target hflag hsj hsize htot
    exact untarLoop_reg_total cwd dst e rest extracted target hflag hsj hsize htot
  · intro cwd dst entries hsj hsz hsum
    exact untarLoop_total_err cwd dst entries 0 le_rfl
      (by simp [maxExtractBytes]) hsj hsz (by omega)

/-- Witness for C5: five 128 MiB entries total 640 MiB, over the 512 MiB
limit; the fifth entry trips the total check. -/
theorem untar_total_limit_witness :
    untarLoop "/w".data "/d".data [⟨"e".data, .reg, maxEntryBytes, 0⟩] (4 * maxEntryBytes)
      = (.error .totalTooLarge, []) ∧
    (untarGzSafe "/w".data
      [⟨"a".data, .reg, maxEntryBytes, 0⟩, ⟨"b".data, .reg, maxEntryBytes, 0⟩,
       ⟨"c".data, .reg, maxEntryBytes, 0⟩, ⟨"d".data, .reg, maxEntryBytes, 0⟩,
       ⟨"e".data, .reg, maxEntryBytes, 0⟩] "/d".data).1 = .error .totalTooLarge := by
  constructor
  · exact untar_total_limit.1 "/w".data "/d".data ⟨"e".data, .reg, maxEntryBytes, 0⟩ [] _
      "/d/e".data rfl (by rfl) (by simp [maxEntryBytes])
      (by simp [maxEntryBytes, maxExtractBytes])
  · apply untar_total_limit.2 "/w".data "/d".data _ ?_ ?_ ?_
    · intro e he _
      fin_cases he <;> exact ⟨_, by rfl⟩
    · intro e he _
      fin_cases he <;> simp [maxEntryBytes]
    · simp [regSizeSum, maxEntryBytes, maxExtractBytes]
